import Mathlib

/-!
Formal model of the `quickselect` Go package (tsenart/quickselect).

The collection is modelled as the package's canonical `IntSlice` instance of the
ordering capability: a `List Int` of element values, where `Less i j` compares
the values at positions `i` and `j` with `<` and `Swap i j` exchanges them.
(Every total preorder over positions is realised by such a value assignment
into a linear order, so this instance is the generic case for the claims.)

Go `int` indices and counters are modelled as `Int`: every quantity arising in
the embedded code stays far below 2^62, so 64-bit wraparound never occurs and
plain integers are faithful.  Go's integer division truncates toward zero;
every `/` in the embedded code has nonnegative operands, where truncating and
Euclidean division coincide with Lean's `/` on `Int`.

Out-of-range slice accesses panic in Go; the model returns `Out.oob` carrying
the collection's contents at the moment of the panic.  Loops are embedded as
structurally recursive functions on an explicit fuel argument so that every
definition is executable and kernel-reducible; the fuel supplied by each
wrapper exceeds the loop's iteration count, and exhaustion (which never occurs
on the executions appearing in the theorems) is the distinct outcome
`Out.spin`, again carrying the current collection contents.
-/

namespace QSel

/-- Outcome of running a piece of the (possibly panicking) Go code: normal
result, a Go panic from an out-of-range index (`oob`, payload = collection
contents at the panic), or fuel exhaustion (`spin`, payload likewise). -/
inductive Out (α : Type) where
  | ok : α → Out α
  | oob : List Int → Out α
  | spin : List Int → Out α
deriving DecidableEq, Repr

namespace Out

def bind : Out α → (α → Out β) → Out β
  | ok a, f => f a
  | oob d, _ => oob d
  | spin d, _ => spin d

instance : Monad Out where
  pure := ok
  bind := bind

end Out

/-- `data.Len()` of the `IntSlice` instance. -/
def glen (d : List Int) : Int := (d.length : Int)

/-- Reading position `i` of a Go slice modelled by list `l`; `d` is the
collection contents reported on panic. -/
def gread (d l : List Int) (i : Int) : Out Int :=
  if 0 ≤ i ∧ i < glen l then .ok (l.getD i.toNat 0) else .oob d

/-- `data.Less(i, j)` of the `IntSlice` instance; with `rev = true` it is the
`sort.Reverse` wrapper's `Less(i, j) = inner.Less(j, i)`. -/
def lessD (rev : Bool) (d : List Int) (i j : Int) : Out Bool :=
  if rev then do
    let x ← gread d d j
    let y ← gread d d i
    pure (x < y)
  else do
    let x ← gread d d i
    let y ← gread d d j
    pure (x < y)

/-- In-bounds exchange of positions `i` and `j` of a list (both < length). -/
def swapCore (l : List Int) (i j : Nat) : List Int :=
  (l.set i (l.getD j 0)).set j (l.getD i 0)

/-- `data.Swap(i, j)` of the `IntSlice` instance (`sort.Reverse` leaves `Swap`
untouched), panicking on an out-of-range index. -/
def swapD (d : List Int) (i j : Int) : Out (List Int) :=
  if 0 ≤ i ∧ i < glen d ∧ 0 ≤ j ∧ j < glen d then .ok (swapCore d i.toNat j.toNat)
  else .oob d

/-- `heap[i]` for the auxiliary Go `[]int` heap index array `hp`; `d` is the
collection contents reported on panic. -/
def hread (d hp : List Int) (i : Int) : Out Int := gread d hp i

/-- `heap[i] = v` for the auxiliary heap index array. -/
def hwrite (d hp : List Int) (i : Int) (v : Int) : Out (List Int) :=
  if 0 ≤ i ∧ i < glen hp then .ok (hp.set i.toNat v) else .oob d

/-- `heap[i], heap[j] = heap[j], heap[i]` for the auxiliary heap index array. -/
def hswap (d hp : List Int) (i j : Int) : Out (List Int) :=
  if 0 ≤ i ∧ i < glen hp ∧ 0 ≤ j ∧ j < glen hp then .ok (swapCore hp i.toNat j.toNat)
  else .oob d

/-! `sampleSize` and `sortedness` (src/quickselect.go, lines 446-499).

`sampleSize` computes Yamane's formula `p / (1 + p·e²)` with `e = 0.05` in
`float64` and rounds up.  With the margin of error taken exactly the quotient
is `400p / (400 + p)`, and its ceiling is computed below in exact integer
arithmetic.  (The `float64` square of `0.05` is `0.0025000000000000005…`, a
half-ulp above `1/400`, making the float quotient at most one ulp below the
exact one, so both round up to the same integer at every population size at
which `sampleSize` is evaluated in the theorems below.)

`sortedness` returns `float32(ordered-inverted) / float32(actualSamples)`.
Both operands are integers of magnitude at most the collection length, hence
exactly representable in `float32`, and the division is correctly rounded, so
on every path on which `actualSamples ≥ 1` — all paths reached by the
selectors — the float result has the same sign, and the same ordering against
`1`, as the exact rational quotient.  The model keeps the numerator
`ordered - inverted` and the denominator `actualSamples` as the exact integer
pair `sortednessCore` (the special-cased returns `1.0` and `-1.0` appear as
`(1, 1)` and `(-1, 1)`); `sortedness` is their rational quotient, and the
selectors branch on the sign of the numerator, which equals the sign of the
returned float. -/

/-- `sampleSize(popSize, 0.05)`: Yamane's formula rounded up and capped at the
population size; `⌈400p/(400+p)⌉ = (400p + (400+p) - 1) / (400+p)` for the
nonnegative `p` arising from a collection length. -/
def sampleSize (popSize : Int) : Int :=
  min ((400 * popSize + (400 + popSize) - 1) / (400 + popSize)) popSize

/-- The stride of `sortedness` for a collection of length `ln`:
`ln / sampleSize`, clamped to at least 1. -/
def strideOf (ln : Int) : Int :=
  if ln / sampleSize ln < 1 then 1 else ln / sampleSize ln

/-- `actualSamples = (ln - 1) / stride` of `sortedness`. -/
def samplesOf (ln : Int) : Int := (ln - 1) / strideOf ln

/-- The sampling loop of `sortedness`: walks `i = 0, stride, 2·stride, …`
while `i < ln - 1`, comparing the elements at `i` and `i+1` and counting
ordered and inverted adjacent pairs.  Both accesses are in bounds whenever
`0 ≤ i < ln - 1 ≤ length - 1`, so the loop reads the values directly. -/
def ordInvLoop (d : List Int) (ln stride : Int) :
    Nat → Int → Int × Int → Int × Int
  | 0, _, acc => acc
  | fuel + 1, i, (ord, inv) =>
    if i < ln - 1 then
      if d.getD i.toNat 0 < d.getD (i + 1).toNat 0 then
        ordInvLoop d ln stride fuel (i + stride) (ord + 1, inv)
      else if d.getD (i + 1).toNat 0 < d.getD i.toNat 0 then
        ordInvLoop d ln stride fuel (i + stride) (ord, inv + 1)
      else ordInvLoop d ln stride fuel (i + stride) (ord, inv)
    else (ord, inv)

/-- The numerator (`ordered - inverted`) and denominator (`actualSamples`) of
the score returned by `sortedness(data)`.  Lengths 0 and 1 return `1.0`
(`(1, 1)`); length 2 returns `±1.0` (`(±1, 1)`) on a strict comparison and
otherwise falls through the Go `switch` into the sampling code (Go `case`
bodies do not fall through to the next case, but this body ends without
`return`, so execution continues after the `switch`). -/
def sortednessCore (d : List Int) : Int × Int :=
  if glen d = 0 ∨ glen d = 1 then (1, 1)
  else if glen d = 2 ∧ d.getD 0 0 < d.getD 1 0 then (1, 1)
  else if glen d = 2 ∧ d.getD 1 0 < d.getD 0 0 then (-1, 1)
  else
    ((ordInvLoop d (glen d) (strideOf (glen d)) ((glen d).toNat + 1) 0 (0, 0)).1 -
       (ordInvLoop d (glen d) (strideOf (glen d)) ((glen d).toNat + 1) 0 (0, 0)).2,
     samplesOf (glen d))

/-- `sortedness(data)`: the exact rational value of the returned `float32`
score. -/
def sortedness (d : List Int) : ℚ :=
  (((sortednessCore d).1 : Int) : ℚ) / (((sortednessCore d).2 : Int) : ℚ)

/-! `findMinimum` (src/quickselect.go, lines 114-122). -/

/-- The loop of `findMinimum`: `for i := 1; i < length; i++`. -/
def findMinLoop (rev : Bool) (d : List Int) (length : Int) :
    Nat → Int → Int → Out Int
  | 0, _, _ => .spin d
  | fuel + 1, i, minIndex =>
    if i < length then do
      let b ← lessD rev d i minIndex
      findMinLoop rev d length fuel (i + 1) (if b then i else minIndex)
    else .ok minIndex

/-- `findMinimum(data, length)`: index of the first minimal element. -/
def findMinimum (rev : Bool) (d : List Int) (length : Int) : Out Int :=
  findMinLoop rev d length (length.toNat + 1) 1 0

/-! `insertionSort` (src/quickselect.go, lines 157-163). -/

/-- Inner loop of `insertionSort`:
`for j := i; j > a && data.Less(j, j-1); j--`. -/
def insSortInner (rev : Bool) (a : Int) : Nat → List Int → Int → Out (List Int)
  | 0, d, _ => .spin d
  | fuel + 1, d, j =>
    if j > a then do
      let b ← lessD rev d j (j - 1)
      if b then do
        let d' ← swapD d j (j - 1)
        insSortInner rev a fuel d' (j - 1)
      else .ok d
    else .ok d

/-- Outer loop of `insertionSort`: `for i := a + 1; i < b; i++`. -/
def insSortOuter (rev : Bool) (a b : Int) : Nat → List Int → Int → Out (List Int)
  | 0, d, _ => .spin d
  | fuel + 1, d, i =>
    if i < b then do
      let d' ← insSortInner rev a ((i - a).toNat + 1) d i
      insSortOuter rev a b fuel d' (i + 1)
    else .ok d

/-- `insertionSort(data, a, b)`. -/
def insertionSort (rev : Bool) (d : List Int) (a b : Int) : Out (List Int) :=
  insSortOuter rev a b ((b - a).toNat + 1) d (a + 1)

/-! `partition3Way` (src/quickselect.go, lines 129-154). -/

/-- The scan loop of `partition3Way`, with `data[a]` holding the element that
was swapped to the front: `for i <= gt { … }`. -/
def p3wLoop (rev : Bool) (a : Int) :
    Nat → List Int → Int → Int → Int → Out (List Int × Int × Int)
  | 0, d, _, _, _ => .spin d
  | fuel + 1, d, lt, gt, i =>
    if i ≤ gt then do
      let b1 ← lessD rev d i a
      if b1 then do
        let d' ← swapD d lt i
        p3wLoop rev a fuel d' (lt + 1) gt (i + 1)
      else do
        let b2 ← lessD rev d a i
        if b2 then do
          let d' ← swapD d i gt
          p3wLoop rev a fuel d' lt (gt - 1) i
        else p3wLoop rev a fuel d lt gt (i + 1)
    else .ok (d, lt, gt)

/-- `partition3Way(data, a, b, pivot)`, returning the final contents together
with the `(lt, gt)` boundaries. -/
def partition3Way (rev : Bool) (d : List Int) (a b pivot : Int) :
    Out (List Int × Int × Int) := do
  let d1 ← swapD d a pivot
  let (d2, lt, gt) ← p3wLoop rev a ((b - a).toNat + 2) d1 a (b - 1) (a + 1)
  if lt = a ∧ gt = b - 1 then .ok (d2, a, b - 1)
  else do
    let d3 ← swapD d2 a lt
    .ok (d3, lt, gt)

/-! `choosePivot` and its median helpers (src/quickselect.go, lines 258-319). -/

/-- `order2(data, a, b, &swaps)`. -/
def order2 (rev : Bool) (d : List Int) (x y swaps : Int) : Out (Int × Int × Int) := do
  let b ← lessD rev d y x
  pure (if b then (y, x, swaps + 1) else (x, y, swaps))

/-- `median(data, a, b, c, &swaps)`: returns the index holding the median and
the updated swap counter. -/
def median (rev : Bool) (d : List Int) (x y z swaps : Int) : Out (Int × Int) := do
  let (x1, y1, s1) ← order2 rev d x y swaps
  let (y2, _z1, s2) ← order2 rev d y1 z s1
  let (_x2, y3, s3) ← order2 rev d x1 y2 s2
  pure (y3, s3)

/-- `medianAdjacent(data, a, &swaps)`. -/
def medianAdjacent (rev : Bool) (d : List Int) (x swaps : Int) : Out (Int × Int) :=
  median rev d (x - 1) x (x + 1) swaps

/-- `choosePivot(data, a, b)`.  The final Go `switch` on the swap counter
returns `j` in every case (`0`, `maxSwaps`, `default`), so the embedded
function returns the computed median index directly. -/
def choosePivot (rev : Bool) (d : List Int) (a b : Int) : Out Int := do
  let l := b - a
  let i := a + l / 4 * 1
  let j := a + l / 4 * 2
  let k := a + l / 4 * 3
  if 8 ≤ l then do
    let (i1, j1, k1, s1) ←
      if 50 ≤ l then do
        let (i1, si) ← medianAdjacent rev d i 0
        let (j1, sj) ← medianAdjacent rev d j si
        let (k1, sk) ← medianAdjacent rev d k sj
        pure (i1, j1, k1, sk)
      else pure (i, j, k, 0)
    let (j2, _s) ← median rev d i1 j1 k1 s1
    pure j2
  else pure j

/-! The unexported `quickSelect` engine (src/quickselect.go, lines 69-111).
`sort.Reverse` wraps the collection when the sortedness estimate is negative;
the wrapper is modelled by the `rev` flag of the comparison. -/

/-- The narrowing loop of `quickSelect`: `for b > a { … }`. -/
def qsLoop (rev : Bool) (k : Int) : Nat → List Int → Int → Int →
    Out (List Int × Int × Int)
  | 0, d, _, _ => .spin d
  | fuel + 1, d, a, b =>
    if b > a then
      if b - a ≤ 8 then do
        let d' ← insertionSort rev d a (b + 1)
        .ok (d', a, k)
      else do
        let pivot ← choosePivot rev d a b
        let (d2, lt, gt) ← partition3Way rev d a b pivot
        if k < lt then qsLoop rev k fuel d2 a (lt - 1)
        else if k > gt then qsLoop rev k fuel d2 (gt + 1) b
        else .ok (d2, a, k)
    else .ok (d, a, a)

/-- `quickSelect(data, k)` (unexported; dead code at the current head, still
exercised by the repository's fuzz harness). -/
def quickSelectInternal (d : List Int) (k : Int) : Out (List Int × Int × Int) :=
  let length := glen d
  if k ≤ 0 ∨ length ≤ 0 then .ok (d, 0, 0)
  else if k ≥ length then .ok (d, 0, length)
  else
    let rev := decide ((sortednessCore d).1 < 0)
    if k = 1 then do
      let m ← findMinimum rev d length
      .ok (d, m, m + 1)
    else qsLoop rev k (d.length + 2) d 0 (length - 1)

/-! The heap selector and its sift helpers
(src/quickselect.go, lines 326-438).  The heap is the auxiliary `[]int` of
candidate indices; only it is mutated during the scans, while the collection
itself is touched solely by the final placement swaps (and, on the
descending-biased branch, the reversal of the last `k` positions). -/

/-- The loop of `heapDown(data, heap, i0, k)`; returns the updated heap and
the final `i` (the caller-visible result is `i > i0`, which every caller in
the package discards). -/
def heapDownLoop (d : List Int) (k : Int) :
    Nat → List Int → Int → Out (List Int × Int)
  | 0, _, _ => .spin d
  | fuel + 1, hp, i =>
    let j1 := 2 * i + 1
    if j1 ≥ k ∨ j1 < 0 then .ok (hp, i)
    else do
      let j2 := j1 + 1
      let j ←
        if j2 < k then do
          let h2 ← hread d hp j2
          let h1 ← hread d hp j1
          let b ← lessD false d h2 h1
          pure (if b then j2 else j1)
        else pure j1
      let hj ← hread d hp j
      let hi ← hread d hp i
      let b ← lessD false d hj hi
      if b then do
        let hp' ← hswap d hp i j
        heapDownLoop d k fuel hp' j
      else .ok (hp, i)

/-- `heapDown(data, heap, i0, k)`. -/
def heapDown (d hp : List Int) (i0 k : Int) : Out (List Int × Bool) := do
  let (hp', i) ← heapDownLoop d k (k.toNat + 2) hp i0
  pure (hp', decide (i > i0))

/-- The loop of `heapInit`: `for i := k/2 - 1; i >= 0; i--`. -/
def heapInitLoop (d : List Int) (k : Int) :
    Nat → List Int → Int → Out (List Int)
  | 0, _, _ => .spin d
  | fuel + 1, hp, i =>
    if 0 ≤ i then do
      let (hp', _) ← heapDown d hp i k
      heapInitLoop d k fuel hp' (i - 1)
    else .ok hp

/-- `heapInit(data, heap)` with `k := len(heap)`. -/
def heapInit (d hp : List Int) : Out (List Int) :=
  heapInitLoop d (glen hp) ((glen hp).toNat + 2) hp ((glen hp) / 2 - 1)

/-- The forward scan of `heapSelect`: `const root = 0;
for i := k; i < n; i++ { if data.Less(i, root) { heap[root] = i; heapDown } }`.
`root` is the constant `0`, used both as the index into `data` in the `Less`
call and as the heap slot that is overwritten, exactly as in the source. -/
def fwdScan (d : List Int) (k n : Int) :
    Nat → List Int → Int → Out (List Int)
  | 0, _, _ => .spin d
  | fuel + 1, hp, i =>
    if i < n then do
      let b ← lessD false d i 0
      if b then do
        let hp1 ← hwrite d hp 0 i
        let (hp2, _) ← heapDown d hp1 0 k
        fwdScan d k n fuel hp2 (i + 1)
      else fwdScan d k n fuel hp (i + 1)
    else .ok hp

/-- The loop of `revHeapDown(data, heap, i0, k)` with `n = data.Len()` and
`hi = n - k`; mirrored child indices `left = n - 2*(n-i)`,
`right = left - 1`. -/
def revHeapDownLoop (d : List Int) (n hi : Int) :
    Nat → List Int → Int → Out (List Int × Int)
  | 0, _, _ => .spin d
  | fuel + 1, hp, i =>
    let left := n - 2 * (n - i)
    if left < hi then .ok (hp, i)
    else do
      let right := left - 1
      let j ←
        if 0 ≤ right then do
          let hr ← hread d hp right
          let hl ← hread d hp left
          let b ← lessD false d hr hl
          pure (if b then right else left)
        else pure left
      let hj ← hread d hp j
      let hi2 ← hread d hp i
      let b ← lessD false d hj hi2
      if b then do
        let hp' ← hswap d hp i j
        revHeapDownLoop d n hi fuel hp' j
      else .ok (hp, i)

/-- `revHeapDown(data, heap, i0, k)`. -/
def revHeapDown (d hp : List Int) (i0 k : Int) : Out (List Int × Bool) := do
  let n := glen d
  let (hp', i) ← revHeapDownLoop d n (n - k) (n.toNat + 2) hp i0
  pure (hp', decide (i < i0))

/-- The loop of `revHeapInit`: `for i := n - k/2 - 1; i < n; i++`. -/
def revHeapInitLoop (d : List Int) (n k : Int) :
    Nat → List Int → Int → Out (List Int)
  | 0, _, _ => .spin d
  | fuel + 1, hp, i =>
    if i < n then do
      let (hp', _) ← revHeapDown d hp i k
      revHeapInitLoop d n k fuel hp' (i + 1)
    else .ok hp

/-- `revHeapInit(data, heap)` with `n := data.Len()`, `k := len(heap)`. -/
def revHeapInit (d hp : List Int) : Out (List Int) :=
  revHeapInitLoop d (glen d) (glen hp) ((glen d).toNat + 2) hp
    (glen d - (glen hp) / 2 - 1)

/-- The backward scan of the descending-biased branch: `root := n - 1;
for i := n - k - 1; i < n; i++ { if data.Less(i, root) { heap[root] = i;
revHeapDown } }`.  `root = n-1` is used both as the `data` index in `Less`
and as the heap slot that is overwritten, exactly as in the source. -/
def revScan (d : List Int) (k n : Int) :
    Nat → List Int → Int → Out (List Int)
  | 0, _, _ => .spin d
  | fuel + 1, hp, i =>
    if i < n then do
      let b ← lessD false d i (n - 1)
      if b then do
        let hp1 ← hwrite d hp (n - 1) i
        let (hp2, _) ← revHeapDown d hp1 (n - 1) k
        revScan d k n fuel hp2 (i + 1)
      else revScan d k n fuel hp (i + 1)
    else .ok hp

/-- Reversal of the last `k` positions:
`for i, j := n-k, n-1; i < j; i, j = i+1, j-1 { data.Swap(i, j) }`. -/
def revKLoop : Nat → List Int → Int → Int → Out (List Int)
  | 0, d, _, _ => .spin d
  | fuel + 1, d, i, j =>
    if i < j then do
      let d' ← swapD d i j
      revKLoop fuel d' (i + 1) (j - 1)
    else .ok d

/-- Ascending sort of the heap index array (`slices.Sort(heap)`), as a plain
insertion sort on the list of indices. -/
def insertSorted (x : Int) : List Int → List Int
  | [] => [x]
  | y :: ys => if x ≤ y then x :: y :: ys else y :: insertSorted x ys

/-- `slices.Sort` on a list of `Int`. -/
def sortInts : List Int → List Int
  | [] => []
  | x :: xs => insertSorted x (sortInts xs)

/-- Final placement: `for i := range heap { data.Swap(i, heap[i]) }`. -/
def placeLoop (hp : List Int) : Nat → List Int → Int → Out (List Int)
  | 0, d, _ => .spin d
  | fuel + 1, d, i =>
    if i < glen hp then do
      let hi ← hread d hp i
      let d' ← swapD d i hi
      placeLoop hp fuel d' (i + 1)
    else .ok d

/-- The shared tail of `heapSelect`: sort the heap indices, swap each selected
element into the front `k` positions, and return `(0, k)`. -/
def heapFinish (d hp : List Int) (k : Int) : Out (List Int × Int × Int) := do
  let hps := sortInts hp
  let d' ← placeLoop hps (hps.length + 1) d 0
  .ok (d', 0, k)

/-- `heapSelect(data, k)` (src/quickselect.go, lines 326-380). -/
def heapSelect (d : List Int) (k : Int) : Out (List Int × Int × Int) :=
  let n := glen d
  if k ≤ 0 ∨ n ≤ 0 then .ok (d, 0, 0)
  else if k = 1 then do
    let m ← findMinimum false d n
    .ok (d, m, m + 1)
  else if k ≥ n then .ok (d, 0, n)
  else
    let hp0 : List Int := (List.range k.toNat).map Int.ofNat
    if 0 ≤ (sortednessCore d).1 then do
      let hp1 ← heapInit d hp0
      let hp2 ← fwdScan d k n (n.toNat + 2) hp1 k
      heapFinish d hp2 k
    else do
      let hp1 ← revHeapInit d hp0
      let hp2 ← revScan d k n (n.toNat + 2) hp1 (n - k - 1)
      let d2 ← revKLoop (n.toNat + 2) d (n - k) (n - 1)
      heapFinish d2 hp2 k

/-- The exported entry point `QuickSelect(data, k)` at the current head
(src/quickselect.go, lines 37-55): the strategy dispatcher and the argument
validation are commented out, and the function forwards every call to
`heapSelect`, returning the index pair with no error value. -/
def QuickSelectGo (d : List Int) (k : Int) : Out (List Int × Int × Int) :=
  heapSelect d k

/-- The multiset of elements at positions `[lo, hi)`. -/
def valsRange (d : List Int) (lo hi : Int) : Multiset Int :=
  ((d.drop lo.toNat).take (hi - lo).toNat : List Int)

/-- The multiset of the `k` smallest elements, computed by a full ascending
sort followed by taking the first `k`. -/
def kSmallest (d : List Int) (k : Nat) : Multiset Int :=
  ((sortInts d).take k : List Int)

/-! The pattern-defeating quickselect engine of src/unnamed/part_001
(`QuickSelect`, lines 435-450, and `pdqQuickSelect`, lines 452-526).

`pdqQuickSelect` drives its loop through eight `_func`-suffixed helpers
(`insertionSort_func`, `heapSort_func`, `breakPatterns_func`,
`choosePivot_func`, `partialInsertionSort_func`, `partitionEqual_func`,
`partition_func`, `reverseRange_func`) whose definitions are not part of the
repository's source files; the embedding therefore takes them as explicit
functional parameters, mirroring their signatures, and the theorems below
constrain only the control flow that the source itself determines. -/

/-- The pivot hints of the pdq engine. -/
inductive Hint where
  | increasing
  | decreasing
  | random
deriving DecidableEq, Repr

/-- The `_func`-suffixed helpers of `pdqQuickSelect`, passed as parameters;
ranges are `[a, b)` as in the source call sites, and data-mutating helpers
return the updated collection. -/
structure PdqFns where
  insertionSortF : List Int → Int → Int → List Int
  heapSortF : List Int → Int → Int → List Int
  breakPatternsF : List Int → Int → Int → List Int
  choosePivotF : List Int → Int → Int → Int × Hint
  presortF : List Int → Int → Int → Bool × List Int
  partitionEqualF : List Int → Int → Int → Int → Int × List Int
  partitionF : List Int → Int → Int → Int → (Int × Bool) × List Int
  reverseRangeF : List Int → Int → Int → List Int

/-- The loop state of `pdqQuickSelect(data, a, b, k, limit)` together with
the `wasBalanced` / `wasPartitioned` flags carried across iterations. -/
structure PdqSt where
  d : List Int
  a : Int
  b : Int
  k : Int
  limit : Int
  wasBalanced : Bool
  wasPartitioned : Bool
deriving DecidableEq, Repr

/-- Result of one iteration of the `pdqQuickSelect` loop: either the loop
continues with an updated state, or the procedure returns with the final
collection contents. -/
inductive PdqRes where
  | next : PdqSt → PdqRes
  | done : List Int → PdqRes
deriving DecidableEq, Repr

/-- One iteration of the `for` loop of `pdqQuickSelect` (src/unnamed/part_001,
lines 460-525), transcribed statement by statement.  `maxInsertion = 12`.
The `reverseRange` case converts the pivot exactly as the source does
(`pivot = (b - a) - (pivot - a)`), and the third branch of the
`partitionEqual` dispatch (`else { return }`) is kept even though the two
conditions `k < mid-a` / `k >= mid-a` already cover all cases.  On the paths
that do not return, `limit` is decremented once after the final comparison
dispatch, and not on the `continue` of the `partitionEqual` branch. -/
def pdqStep (F : PdqFns) (st : PdqSt) : PdqRes :=
  let length := st.b - st.a
  if length ≤ 12 then .done (F.insertionSortF st.d st.a (st.b + 1))
  else if st.limit = 0 then .done (F.heapSortF st.d st.a (st.b + 1))
  else
    let d0 := if st.wasBalanced then st.d else F.breakPatternsF st.d st.a (st.b + 1)
    let limit0 := if st.wasBalanced then st.limit else st.limit - 1
    let ph := F.choosePivotF d0 st.a (st.b + 1)
    let d1 := if ph.2 = Hint.decreasing then F.reverseRangeF d0 st.a (st.b + 1) else d0
    let pivot := if ph.2 = Hint.decreasing then (st.b - st.a) - (ph.1 - st.a) else ph.1
    let hint := if ph.2 = Hint.decreasing then Hint.increasing else ph.2
    let ps :=
      if st.wasBalanced ∧ st.wasPartitioned ∧ hint = Hint.increasing then
        F.presortF d1 st.a (st.b + 1)
      else (false, d1)
    if ps.1 then .done ps.2
    else
      let d2 := ps.2
      if st.a > 0 ∧ ¬ (d2.getD (st.a - 1).toNat 0 < d2.getD pivot.toNat 0) then
        let me := F.partitionEqualF d2 st.a (st.b + 1) pivot
        let mid := me.1
        if st.k < mid - st.a then
          .next { st with d := me.2, b := mid - 1, limit := limit0 }
        else if st.k ≥ mid - st.a then
          .next { st with d := me.2, k := st.k - (mid - st.a), a := mid, limit := limit0 }
        else .done me.2
      else
        let pr := F.partitionF d2 st.a (st.b + 1) pivot
        let newPivot := pr.1.1
        let wasPartitioned := pr.1.2
        let leftLen := newPivot - st.a
        let rightLen := st.b - newPivot
        let balanceThreshold := length / 8
        if st.k = newPivot then .done pr.2
        else if st.k < newPivot then
          .next { d := pr.2, a := st.a, b := newPivot - 1, k := st.k,
                  limit := limit0 - 1,
                  wasBalanced := decide (leftLen ≥ balanceThreshold),
                  wasPartitioned := wasPartitioned }
        else
          .next { d := pr.2, a := newPivot + 1, b := st.b, k := st.k,
                  limit := limit0 - 1,
                  wasBalanced := decide (rightLen ≥ balanceThreshold),
                  wasPartitioned := wasPartitioned }

/-- Iterating `pdqStep` until the procedure returns. -/
def pdqLoop (F : PdqFns) : Nat → PdqSt → Option (List Int)
  | 0, _ => none
  | fuel + 1, st =>
    match pdqStep F st with
    | .done d => some d
    | .next st' => pdqLoop F fuel st'

/-- Go's `bits.Len(uint(n))`: the number of bits of `n`, i.e.
`⌊log2 n⌋ + 1` for `n ≥ 1` and `0` for `n = 0`. -/
def bitsLen (n : Nat) : Nat :=
  if n = 0 then 0 else Nat.log2 n + 1

/-- The initial value of the recursion-limit counter of the pdq engine:
`QuickSelect` (src/unnamed/part_001, line 447) passes
`bits.Len(uint(data.Len()))`. -/
def pdqInitialLimit (n : Nat) : Nat := bitsLen n

/-- `⌈log2 n⌉` as stated by the claim (Mathlib's ceiling logarithm). -/
def ceilLog2 (n : Nat) : Nat := Nat.clog 2 n

/-- The validating entry point `QuickSelect` of src/unnamed/part_001
(lines 435-450): rejects `k < 1` and `k > n` with the out-of-range error and
otherwise runs `pdqQuickSelect(data, 0, length-1, k-1, bits.Len(uint(n)))`. -/
def pdqQuickSelectCall (F : PdqFns) (d : List Int) (k : Int) (fuel : Nat) :
    Except String (Option (List Int)) :=
  let length := glen d
  if k < 1 ∨ k > length then .error "OutOfRange"
  else .ok (pdqLoop F fuel
    { d := d, a := 0, b := length - 1, k := k - 1,
      limit := (pdqInitialLimit d.length : Int),
      wasBalanced := true, wasPartitioned := true })

/-! Predicates and concrete inputs used by the theorems. -/

/-- On an error outcome the recorded collection contents equal `d`; no
condition on a normal outcome.  Holds for every operation that reads the
collection or mutates only the auxiliary heap index array. -/
def payloadIs (d : List Int) : Out α → Prop
  | .ok _ => True
  | .oob e => e = d
  | .spin e => e = d

/-- The collection contents of the outcome — final on a normal return,
as-at-the-panic otherwise — are a permutation of `d0`. -/
def permOutD (d0 : List Int) : Out (List Int) → Prop
  | .ok d => d.Perm d0
  | .oob d => d.Perm d0
  | .spin d => d.Perm d0

/-- As `permOutD`, for operations that also return an index pair. -/
def permOutSel (d0 : List Int) : Out (List Int × Int × Int) → Prop
  | .ok x => x.1.Perm d0
  | .oob d => d.Perm d0
  | .spin d => d.Perm d0

/-- The strictly ascending collection `0, 1, …, 399`. -/
def asc400 : List Int := (List.range 400).map Int.ofNat

/-- Concrete helper instantiation used to observe which helper `pdqStep`
dispatches to: the insertion-sort and heap-sort helpers prepend distinct
markers. -/
def pdqMarkerFns : PdqFns where
  insertionSortF := fun d _ _ => 1001 :: d
  heapSortF := fun d _ _ => 1002 :: d
  breakPatternsF := fun d _ _ => d
  choosePivotF := fun _ a _ => (a, Hint.random)
  presortF := fun d _ _ => (false, d)
  partitionEqualF := fun d a _ _ => (a, d)
  partitionF := fun d a _ _ => ((a, false), d)
  reverseRangeF := fun d _ _ => d

/-! ### Theorems -/

namespace Out

@[simp] theorem bind_ok (a : α) (f : α → Out β) : bind (ok a) f = f a := rfl

@[simp] theorem bind_oob (d : List Int) (f : α → Out β) : bind (oob d) f = oob d := rfl

@[simp] theorem bind_spin (d : List Int) (f : α → Out β) : bind (spin d) f = spin d := rfl

@[simp] theorem monad_bind_eq_bind (o : Out α) (f : α → Out β) :
    (o >>= f) = bind o f := rfl

@[simp] theorem pure_eq_ok (a : α) : (pure a : Out α) = ok a := rfl

theorem bind_eq_ok {o : Out α} {f : α → Out β} {v : β} :
    bind o f = ok v ↔ ∃ a, o = ok a ∧ f a = ok v := by
  cases o <;> simp [bind]

end Out

theorem cons_set_perm (l : List Int) (j : Nat) (a : Int) (hj : j < l.length) :
    (l.getD j 0 :: l.set j a).Perm (a :: l) := by
  induction l generalizing j with
  | nil => simp at hj
  | cons b t ih =>
    cases j with
    | zero => simpa using List.Perm.swap a b t
    | succ j =>
      have hj' : j < t.length := by simpa using hj
      have step : (t.getD j 0 :: b :: t.set j a).Perm (b :: t.getD j 0 :: t.set j a) :=
        List.Perm.swap b (t.getD j 0) _
      have mid : (b :: t.getD j 0 :: t.set j a).Perm (b :: a :: t) :=
        (ih j hj').cons b
      have fin : (b :: a :: t).Perm (a :: b :: t) := List.Perm.swap a b t
      simpa using (step.trans mid).trans fin

theorem swapCore_perm (l : List Int) (i j : Nat) (hi : i < l.length)
    (hj : j < l.length) : (swapCore l i j).Perm l := by
  induction l generalizing i j with
  | nil => simp at hi
  | cons b t ih =>
    cases i with
    | zero =>
      cases j with
      | zero => simp [swapCore]
      | succ j =>
        have hj' : j < t.length := by simpa using hj
        have : swapCore (b :: t) 0 (j + 1) = t.getD j 0 :: t.set j b := by
          simp [swapCore]
        rw [this]
        exact cons_set_perm t j b hj'
    | succ i =>
      cases j with
      | zero =>
        have hi' : i < t.length := by simpa using hi
        have : swapCore (b :: t) (i + 1) 0 = t.getD i 0 :: t.set i b := by
          simp [swapCore]
        rw [this]
        exact cons_set_perm t i b hi'
      | succ j =>
        have hi' : i < t.length := by simpa using hi
        have hj' : j < t.length := by simpa using hj
        have : swapCore (b :: t) (i + 1) (j + 1) = b :: swapCore t i j := by
          simp [swapCore]
        rw [this]
        exact (ih i j hi' hj').cons b

theorem swapD_ok_perm {d d' : List Int} {i j : Int} (h : swapD d i j = .ok d') :
    d'.Perm d := by
  unfold swapD at h
  split at h
  · rename_i hc
    cases h
    exact swapCore_perm d i.toNat j.toNat
      (by have := hc.2.1; simp only [glen] at this; omega)
      (by have := hc.2.2.2; simp only [glen] at this; omega)
  · cases h

set_option maxRecDepth 8000

/-- Claim C1: evaluating the public entry point at the repository's own test
input (`TestQuickSelectWithSimpleArray`, k = 5) shows that the returned range
`[0, 5)` holds the multiset `{50, 30, 25, 45, 5}` and not the multiset
`{2, 3, 4, 5, 6}` of the 5 smallest elements computed by a full sort: the
claim's property fails on the code (the scan of `heapSelect` compares each
element against the element at index `0` of the collection instead of the
element indexed by the heap root). -/
theorem claim1_eval :
    QuickSelectGo [50, 20, 30, 25, 45, 2, 6, 10, 3, 4, 5] 5 =
      .ok ([50, 30, 25, 45, 5, 2, 6, 10, 3, 4, 20], 0, 5) ∧
    kSmallest [50, 20, 30, 25, 45, 2, 6, 10, 3, 4, 5] 5 =
      (([2, 3, 4, 5, 6] : List Int) : Multiset Int) ∧
    valsRange [50, 30, 25, 45, 5, 2, 6, 10, 3, 4, 20] 0 5 ≠
      (([2, 3, 4, 5, 6] : List Int) : Multiset Int) := by
  refine ⟨by decide, by decide, by decide⟩

/-- Claim C2: the entry point at the current head returns an index pair with
no error value at all.  With `k > n` it silently returns `(0, n)` unchanged
(and `(0, 0)` for an empty collection or `k ≤ 0`), so no OutOfRange error is
raised for any out-of-range `k`, contradicting the entry point's own doc
comment, which promises an error. -/
theorem claim2_eval :
    QuickSelectGo [1, 2, 3] 5 = .ok ([1, 2, 3], 0, 3) ∧
    QuickSelectGo [] 5 = .ok ([], 0, 0) ∧
    QuickSelectGo [1, 2, 3] 0 = .ok ([1, 2, 3], 0, 0) := by
  refine ⟨by decide, by decide, by decide⟩

/-- Claim C5: none of the three code paths steered by the sortedness estimate is
correct.  The ascending-biased heap branch (taken, numerator of the estimate
`≥ 0`) returns a range holding `{16, 29, 25, -27}` instead of the 4 smallest
`{-27, -14, -11, 4}`; the descending-biased mirrored branch panics with an
out-of-range heap index; the reverse-then-select path of the quickselect
engine returns `{5, 4}` instead of the 2 smallest `{1, 2}`. -/
theorem claim5_eval :
    (heapSelect [16, 29, -11, 25, 28, -14, 10, 4, 7, -27] 4 =
        .ok ([16, 29, 25, -27, 28, -14, 10, 4, 7, -11], 0, 4) ∧
      valsRange [16, 29, 25, -27, 28, -14, 10, 4, 7, -11] 0 4 ≠
        kSmallest [16, 29, -11, 25, 28, -14, 10, 4, 7, -27] 4) ∧
    heapSelect [12, 11, 10, 9, 8, 7, 6, 5] 3 = .oob [12, 11, 10, 9, 8, 7, 6, 5] ∧
    (quickSelectInternal [5, 4, 3, 2, 1] 2 = .ok ([5, 4, 3, 2, 1], 0, 2) ∧
      valsRange [5, 4, 3, 2, 1] 0 2 ≠ kSmallest [5, 4, 3, 2, 1] 2) := by
  refine ⟨⟨by decide, by decide⟩, by decide, by decide, by decide⟩

/-- Claim C7: `partition3Way([2,1,3], a = 0, b = 3, pivot = 0)` (pivot value
`2`) returns `(lt, gt) = (1, 1)` with final contents `[2, 1, 3]`.  The element
at index `0`, which lies in the claimed "less than the pivot" zone `[0, 1)`,
equals the pivot value `2` and is not less than it, and the element at index
`1`, which lies in the claimed "equal to the pivot" zone `[1, 2)`, is `1 ≠ 2`:
both zone properties of the claim (and of the function's own doc comment)
fail.  (The first `Swap(lt, i)` of the scan runs with `lt = a` and moves the
pivot element away from position `a`, after which every comparison against
position `a` compares with the wrong value.) -/
theorem claim7_eval :
    partition3Way false [2, 1, 3] 0 3 0 = .ok ([2, 1, 3], 1, 1) ∧
    ¬ (([2, 1, 3] : List Int).getD 0 0 < ([2, 1, 3] : List Int).getD 0 0) ∧
    ([2, 1, 3] : List Int).getD 1 0 ≠ ([2, 1, 3] : List Int).getD 0 0 := by
  refine ⟨by decide, by decide, by decide⟩

/-- Claim C9: on a strictly descending collection with `k = 3` the estimate is
negative, the mirrored reverse-heap branch runs, and `revHeapDown` reads
`heap[7]` of the 3-entry heap index array: the selection call aborts with an
out-of-range panic instead of completing (the recorded contents show the
collection untouched at the panic). -/
theorem claim9_eval :
    QuickSelectGo [9, 8, 7, 6, 5, 4, 3, 2, 1, 0] 3 =
      .oob [9, 8, 7, 6, 5, 4, 3, 2, 1, 0] := by
  decide

/-- Claim C6, counterexample: on the strictly ascending collection
`0, …, 399` the stride is 2, the sampling loop runs `⌈399/2⌉ = 200` times
while `actualSamples = ⌊399/2⌋ = 199`, and the returned score is
`200/199 > 1`, outside the claimed interval `[-1, 1]`. -/
theorem claim6_counterexample :
    sortednessCore asc400 = (200, 199) ∧ sortedness asc400 = 200 / 199 ∧
    ¬ sortedness asc400 ≤ 1 := by
  have h : sortednessCore asc400 = (200, 199) := by decide
  have hv : sortedness asc400 = 200 / 199 := by
    unfold sortedness
    rw [h]
    norm_num
  refine ⟨h, hv, by rw [hv]; norm_num⟩

/-- Claim C8, counterexample: the recursion-limit counter is initialized to
`bits.Len(n)`, which at the power of two `n = 8` is `4` and not
`⌈log2 8⌉ = 3`; moreover with the counter at `0` but a working range of at
most 12 elements the loop body finishes with the insertion-sort helper, not
the heap-sort helper. -/
theorem claim8_counterexample :
    (pdqInitialLimit 8 = 4 ∧ ceilLog2 8 = 3) ∧
    pdqStep pdqMarkerFns ⟨[5, 4, 3, 2, 1], 0, 4, 2, 0, true, true⟩ =
      .done (pdqMarkerFns.insertionSortF [5, 4, 3, 2, 1] 0 5) ∧
    pdqMarkerFns.insertionSortF [5, 4, 3, 2, 1] 0 5 ≠
      pdqMarkerFns.heapSortF [5, 4, 3, 2, 1] 0 5 := by
  refine ⟨⟨?_, ?_⟩, by decide, by decide⟩
  · show bitsLen 8 = 4
    have h8 : Nat.log2 8 = 3 := by
      rw [Nat.log2_eq_log_two, show (8 : Nat) = 2 ^ 3 by norm_num,
        Nat.log_pow (by norm_num)]
    simp [bitsLen, h8]
  · show Nat.clog 2 8 = 3
    rw [show (8 : Nat) = 2 ^ 3 by norm_num]
    exact Nat.clog_pow 2 3 (by norm_num)

/-- Claim C8, amended: the counter is initialized to `bits.Len(n) = ⌊log2 n⌋ + 1`
(one more than `⌈log2 n⌉` at exact powers of two), and whenever the loop body
runs with the counter at `0` and a working range longer than 12 elements it
abandons partitioning, hands the remaining working range `[a, b]` to the
heap-sort helper, and returns its result (ranges of at most 12 elements are
finished with insertion sort regardless of the counter). -/
theorem claim8_amended :
    (∀ n : Nat, 1 ≤ n → pdqInitialLimit n = Nat.log2 n + 1) ∧
    (∀ (F : PdqFns) (st : PdqSt), st.limit = 0 → 12 < st.b - st.a →
      pdqStep F st = .done (F.heapSortF st.d st.a (st.b + 1))) := by
  constructor
  · intro n hn
    unfold pdqInitialLimit bitsLen
    rw [if_neg (by omega)]
  · intro F st hlim hlen
    simp only [pdqStep]
    rw [if_neg (by omega), hlim]
    simp

/-- Witness for the amended claim C8 at concrete inputs. -/
theorem claim8_amended_witness :
    pdqInitialLimit 5 = Nat.log2 5 + 1 ∧
    pdqStep pdqMarkerFns ⟨[7, 7, 7], 0, 20, 3, 0, true, true⟩ =
      .done (pdqMarkerFns.heapSortF [7, 7, 7] 0 21) :=
  ⟨claim8_amended.1 5 (by norm_num),
   claim8_amended.2 pdqMarkerFns ⟨[7, 7, 7], 0, 20, 3, 0, true, true⟩ rfl (by norm_num)⟩

theorem heapFinish_ok_shape {d hp d' : List Int} {k lo hi : Int}
    (h : heapFinish d hp k = .ok (d', lo, hi)) : lo = 0 ∧ hi = k := by
  unfold heapFinish at h
  simp only [Out.monad_bind_eq_bind] at h
  rcases Out.bind_eq_ok.mp h with ⟨a, _, hf⟩
  simp only [Out.ok.injEq, Prod.mk.injEq] at hf
  exact ⟨hf.2.1.symm, hf.2.2.symm⟩

/-- Claim C3: for every collection and every valid `k` with `1 ≤ k ≤ n`, any
index pair that the entry point returns satisfies `hi - lo = k`: the `k = 1`
path returns `(m, m+1)`, the `k = n` path returns `(0, n)`, and both heap
branches return `(0, k)` through the shared tail.  (On a descending-biased
input with `2 ≤ k < n` the call panics and returns no pair at all; that
failure is the subject of claim C9.) -/
theorem claim3_hi_lo (d : List Int) (k : Int) (h1 : 1 ≤ k) (h2 : k ≤ glen d)
    (d' : List Int) (lo hi : Int)
    (hok : QuickSelectGo d k = .ok (d', lo, hi)) : hi - lo = k := by
  have hn : 1 ≤ glen d := le_trans h1 h2
  simp only [QuickSelectGo, heapSelect, Out.monad_bind_eq_bind] at hok
  rw [if_neg (by omega)] at hok
  by_cases hk1 : k = 1
  · rw [if_pos hk1] at hok
    rcases Out.bind_eq_ok.mp hok with ⟨m, _, hf⟩
    simp only [Out.ok.injEq, Prod.mk.injEq] at hf
    omega
  · rw [if_neg hk1] at hok
    by_cases hkn : k ≥ glen d
    · rw [if_pos hkn] at hok
      simp only [Out.ok.injEq, Prod.mk.injEq] at hok
      omega
    · rw [if_neg hkn] at hok
      split at hok
      · rcases Out.bind_eq_ok.mp hok with ⟨hp1, _, hok2⟩
        rcases Out.bind_eq_ok.mp hok2 with ⟨hp2, _, hok3⟩
        have := heapFinish_ok_shape hok3
        omega
      · rcases Out.bind_eq_ok.mp hok with ⟨hp1, _, hok2⟩
        rcases Out.bind_eq_ok.mp hok2 with ⟨hp2, _, hok3⟩
        rcases Out.bind_eq_ok.mp hok3 with ⟨d2, _, hok4⟩
        have := heapFinish_ok_shape hok4
        omega

/-- Witness for claim C3 at a concrete input: `QuickSelect([3,1,2], 2)`
returns the pair `(0, 2)` and `2 - 0 = 2`. -/
theorem claim3_witness : (2 : Int) - 0 = 2 :=
  claim3_hi_lo [3, 1, 2] 2 (by norm_num) (by decide) [3, 2, 1] 0 2 (by decide)

theorem findMinLoop_ok (d : List Int) :
    ∀ (fuel : Nat) (i minIdx : Int), 0 ≤ minIdx → minIdx < glen d → 1 ≤ i →
      (glen d - i).toNat < fuel →
      (∀ t : Nat, (t : Int) < i → ¬ (d.getD t 0 < d.getD minIdx.toNat 0)) →
      ∃ m : Int, findMinLoop false d (glen d) fuel i minIdx = .ok m ∧
        0 ≤ m ∧ m < glen d ∧
        ∀ t : Nat, (t : Int) < glen d → ¬ (d.getD t 0 < d.getD m.toNat 0) := by
  intro fuel
  induction fuel with
  | zero => intro i minIdx _ _ _ hf _; omega
  | succ fuel ih =>
    intro i minIdx h0 hlt h1 hf hinv
    rw [findMinLoop]
    by_cases hi : i < glen d
    · rw [if_pos hi]
      have hless : lessD false d i minIdx =
          .ok (decide (d.getD i.toNat 0 < d.getD minIdx.toNat 0)) := by
        unfold lessD gread
        rw [if_neg (by simp)]
        rw [if_pos ⟨by omega, hi⟩]
        simp only [Out.monad_bind_eq_bind, Out.bind_ok]
        rw [if_pos ⟨h0, hlt⟩]
        simp
      rw [hless]
      simp only [Out.monad_bind_eq_bind, Out.bind_ok]
      by_cases hcmp : d.getD i.toNat 0 < d.getD minIdx.toNat 0
      · rw [if_pos (by simpa using hcmp)]
        refine ih (i + 1) i (by omega) hi (by omega) (by omega) ?_
        intro t ht
        by_cases hti : (t : Int) = i
        · have : t = i.toNat := by omega
          subst this
          exact lt_irrefl _
        · intro habs
          exact hinv t (by omega) (lt_trans habs hcmp)
      · rw [if_neg (by simpa using hcmp)]
        refine ih (i + 1) minIdx h0 hlt (by omega) (by omega) ?_
        intro t ht
        by_cases hti : (t : Int) = i
        · have : t = i.toNat := by omega
          subst this
          exact hcmp
        · exact hinv t (by omega)
    · rw [if_neg hi]
      exact ⟨minIdx, rfl, h0, hlt, fun t ht => hinv t (by omega)⟩

/-- Claim C4: on every non-empty collection, selecting with `k = 1` leaves the
collection untouched and returns the one-index range `(m, m+1)` where `m` is
in bounds and the element at `m` is a global minimum — no element of the
collection is less than it. -/
theorem claim4_k1_min (d : List Int) (hne : 0 < d.length) :
    ∃ m : Int, QuickSelectGo d 1 = .ok (d, m, m + 1) ∧ 0 ≤ m ∧ m < glen d ∧
      ∀ t : Nat, t < d.length → ¬ (d.getD t 0 < d.getD m.toNat 0) := by
  have hg : glen d = (d.length : Int) := rfl
  obtain ⟨m, hm, hm0, hmlt, hmin⟩ :=
    findMinLoop_ok d (d.length + 1) 1 0 le_rfl (by omega) le_rfl (by omega)
      (fun t ht => by
        have ht0 : t = 0 := by omega
        subst ht0
        exact lt_irrefl _)
  refine ⟨m, ?_, hm0, hmlt, fun t ht => hmin t (by omega)⟩
  simp only [QuickSelectGo, heapSelect, Out.monad_bind_eq_bind]
  rw [if_neg (by omega), if_pos trivial]
  unfold findMinimum
  have hfuel : (glen d).toNat + 1 = d.length + 1 := by omega
  rw [hfuel, hm]
  simp

/-- Witness for claim C4 at a concrete input. -/
theorem claim4_witness :
    ∃ m : Int, QuickSelectGo [5, 2, 7] 1 = .ok ([5, 2, 7], m, m + 1) ∧ 0 ≤ m ∧
      m < glen [5, 2, 7] ∧
      ∀ t : Nat, t < ([5, 2, 7] : List Int).length →
        ¬ (([5, 2, 7] : List Int).getD t 0 < ([5, 2, 7] : List Int).getD m.toNat 0) :=
  claim4_k1_min [5, 2, 7] (by norm_num)

/-! Permutation plumbing for claim C10: `payloadIs` composition and the
permutation behaviour of every data-mutating loop. -/

theorem payloadIs_bind {d : List Int} {o : Out α} {f : α → Out β}
    (h1 : payloadIs d o) (h2 : ∀ a, payloadIs d (f a)) :
    payloadIs d (Out.bind o f) := by
  cases o with
  | ok a => exact h2 a
  | oob e => exact h1
  | spin e => exact h1

theorem payloadIs_gread (d l : List Int) (i : Int) : payloadIs d (gread d l i) := by
  unfold gread
  split
  · trivial
  · rfl

theorem payloadIs_lessD (rev : Bool) (d : List Int) (i j : Int) :
    payloadIs d (lessD rev d i j) := by
  unfold lessD
  split <;>
    { simp only [Out.monad_bind_eq_bind]
      exact payloadIs_bind (payloadIs_gread d d _)
        fun x => payloadIs_bind (payloadIs_gread d d _) fun y => trivial }

theorem payloadIs_hread (d hp : List Int) (i : Int) : payloadIs d (hread d hp i) :=
  payloadIs_gread d hp i

theorem payloadIs_hwrite (d hp : List Int) (i v : Int) :
    payloadIs d (hwrite d hp i v) := by
  unfold hwrite
  split
  · trivial
  · rfl

theorem payloadIs_hswap (d hp : List Int) (i j : Int) :
    payloadIs d (hswap d hp i j) := by
  unfold hswap
  split
  · trivial
  · rfl

theorem payloadIs_pure (d : List Int) (a : α) : payloadIs d (pure a : Out α) :=
  trivial

theorem payloadIs_heapDownLoop (d : List Int) (k : Int) :
    ∀ (fuel : Nat) (hp : List Int) (i : Int),
      payloadIs d (heapDownLoop d k fuel hp i) := by
  intro fuel
  induction fuel with
  | zero => intro hp i; rfl
  | succ fuel ih =>
    intro hp i
    rw [heapDownLoop]
    split
    · trivial
    · simp only [Out.monad_bind_eq_bind]
      split
      · refine payloadIs_bind (payloadIs_hread d hp _) fun h2 => ?_
        refine payloadIs_bind (payloadIs_hread d hp _) fun h1 => ?_
        refine payloadIs_bind (payloadIs_lessD false d _ _) fun b => ?_
        refine payloadIs_bind (payloadIs_pure d _) fun y => ?_
        refine payloadIs_bind (payloadIs_hread d hp _) fun hj => ?_
        refine payloadIs_bind (payloadIs_hread d hp _) fun hi => ?_
        refine payloadIs_bind (payloadIs_lessD false d _ _) fun b2 => ?_
        split
        · exact payloadIs_bind (payloadIs_hswap d hp _ _) fun hp' => ih hp' _
        · trivial
      · refine payloadIs_bind (payloadIs_pure d _) fun y => ?_
        refine payloadIs_bind (payloadIs_hread d hp _) fun hj => ?_
        refine payloadIs_bind (payloadIs_hread d hp _) fun hi => ?_
        refine payloadIs_bind (payloadIs_lessD false d _ _) fun b2 => ?_
        split
        · exact payloadIs_bind (payloadIs_hswap d hp _ _) fun hp' => ih hp' _
        · trivial

theorem payloadIs_heapDown (d hp : List Int) (i0 k : Int) :
    payloadIs d (heapDown d hp i0 k) := by
  unfold heapDown
  simp only [Out.monad_bind_eq_bind]
  exact payloadIs_bind (payloadIs_heapDownLoop d k _ hp i0) fun x => trivial

theorem payloadIs_heapInitLoop (d : List Int) (k : Int) :
    ∀ (fuel : Nat) (hp : List Int) (i : Int),
      payloadIs d (heapInitLoop d k fuel hp i) := by
  intro fuel
  induction fuel with
  | zero => intro hp i; rfl
  | succ fuel ih =>
    intro hp i
    rw [heapInitLoop]
    split
    · simp only [Out.monad_bind_eq_bind]
      exact payloadIs_bind (payloadIs_heapDown d hp i k) fun x => ih x.1 (i - 1)
    · trivial

theorem payloadIs_heapInit (d hp : List Int) : payloadIs d (heapInit d hp) :=
  payloadIs_heapInitLoop d _ _ hp _

theorem payloadIs_fwdScan (d : List Int) (k n : Int) :
    ∀ (fuel : Nat) (hp : List Int) (i : Int),
      payloadIs d (fwdScan d k n fuel hp i) := by
  intro fuel
  induction fuel with
  | zero => intro hp i; rfl
  | succ fuel ih =>
    intro hp i
    rw [fwdScan]
    split
    · simp only [Out.monad_bind_eq_bind]
      refine payloadIs_bind (payloadIs_lessD false d _ _) fun b => ?_
      split
      · refine payloadIs_bind (payloadIs_hwrite d hp _ _) fun hp1 => ?_
        exact payloadIs_bind (payloadIs_heapDown d hp1 0 k) fun x => ih x.1 (i + 1)
      · exact ih hp (i + 1)
    · trivial

theorem payloadIs_revHeapDownLoop (d : List Int) (n hi : Int) :
    ∀ (fuel : Nat) (hp : List Int) (i : Int),
      payloadIs d (revHeapDownLoop d n hi fuel hp i) := by
  intro fuel
  induction fuel with
  | zero => intro hp i; rfl
  | succ fuel ih =>
    intro hp i
    rw [revHeapDownLoop]
    split
    · trivial
    · simp only [Out.monad_bind_eq_bind]
      split
      · refine payloadIs_bind (payloadIs_hread d hp _) fun hr => ?_
        refine payloadIs_bind (payloadIs_hread d hp _) fun hl => ?_
        refine payloadIs_bind (payloadIs_lessD false d _ _) fun b => ?_
        refine payloadIs_bind (payloadIs_pure d _) fun y => ?_
        refine payloadIs_bind (payloadIs_hread d hp _) fun hj => ?_
        refine payloadIs_bind (payloadIs_hread d hp _) fun hi2 => ?_
        refine payloadIs_bind (payloadIs_lessD false d _ _) fun b2 => ?_
        split
        · exact payloadIs_bind (payloadIs_hswap d hp _ _) fun hp' => ih hp' _
        · trivial
      · refine payloadIs_bind (payloadIs_pure d _) fun y => ?_
        refine payloadIs_bind (payloadIs_hread d hp _) fun hj => ?_
        refine payloadIs_bind (payloadIs_hread d hp _) fun hi2 => ?_
        refine payloadIs_bind (payloadIs_lessD false d _ _) fun b2 => ?_
        split
        · exact payloadIs_bind (payloadIs_hswap d hp _ _) fun hp' => ih hp' _
        · trivial

theorem payloadIs_revHeapDown (d hp : List Int) (i0 k : Int) :
    payloadIs d (revHeapDown d hp i0 k) := by
  unfold revHeapDown
  simp only [Out.monad_bind_eq_bind]
  exact payloadIs_bind (payloadIs_revHeapDownLoop d _ _ _ hp i0) fun x => trivial

theorem payloadIs_revHeapInitLoop (d : List Int) (n k : Int) :
    ∀ (fuel : Nat) (hp : List Int) (i : Int),
      payloadIs d (revHeapInitLoop d n k fuel hp i) := by
  intro fuel
  induction fuel with
  | zero => intro hp i; rfl
  | succ fuel ih =>
    intro hp i
    rw [revHeapInitLoop]
    split
    · simp only [Out.monad_bind_eq_bind]
      exact payloadIs_bind (payloadIs_revHeapDown d hp i k) fun x => ih x.1 (i + 1)
    · trivial

theorem payloadIs_revHeapInit (d hp : List Int) : payloadIs d (revHeapInit d hp) :=
  payloadIs_revHeapInitLoop d _ _ _ hp _

theorem payloadIs_revScan (d : List Int) (k n : Int) :
    ∀ (fuel : Nat) (hp : List Int) (i : Int),
      payloadIs d (revScan d k n fuel hp i) := by
  intro fuel
  induction fuel with
  | zero => intro hp i; rfl
  | succ fuel ih =>
    intro hp i
    rw [revScan]
    split
    · simp only [Out.monad_bind_eq_bind]
      refine payloadIs_bind (payloadIs_lessD false d _ _) fun b => ?_
      split
      · refine payloadIs_bind (payloadIs_hwrite d hp _ _) fun hp1 => ?_
        exact payloadIs_bind (payloadIs_revHeapDown d hp1 _ k) fun x => ih x.1 (i + 1)
      · exact ih hp (i + 1)
    · trivial

theorem payloadIs_findMinLoop (rev : Bool) (d : List Int) (length : Int) :
    ∀ (fuel : Nat) (i minIdx : Int),
      payloadIs d (findMinLoop rev d length fuel i minIdx) := by
  intro fuel
  induction fuel with
  | zero => intro i minIdx; rfl
  | succ fuel ih =>
    intro i minIdx
    rw [findMinLoop]
    split
    · simp only [Out.monad_bind_eq_bind]
      exact payloadIs_bind (payloadIs_lessD rev d _ _) fun b => ih (i + 1) _
    · trivial

theorem permOutD_mono {d0 d1 : List Int} (hp : d1.Perm d0) {o : Out (List Int)}
    (h : permOutD d1 o) : permOutD d0 o := by
  cases o with
  | ok a => exact List.Perm.trans h hp
  | oob e => exact List.Perm.trans h hp
  | spin e => exact List.Perm.trans h hp

theorem permOutSel_mono {d0 d1 : List Int} (hp : d1.Perm d0)
    {o : Out (List Int × Int × Int)} (h : permOutSel d1 o) : permOutSel d0 o := by
  cases o with
  | ok a => exact List.Perm.trans h hp
  | oob e => exact List.Perm.trans h hp
  | spin e => exact List.Perm.trans h hp

theorem permOutD_bind_payload {d : List Int} {o : Out α} {f : α → Out (List Int)}
    (h1 : payloadIs d o) (h2 : ∀ a, permOutD d (f a)) :
    permOutD d (Out.bind o f) := by
  cases o with
  | ok a => exact h2 a
  | oob e =>
    have he : e = d := h1
    subst he
    exact List.Perm.refl e
  | spin e =>
    have he : e = d := h1
    subst he
    exact List.Perm.refl e

theorem permOutSel_bind_payload {d : List Int} {o : Out α}
    {f : α → Out (List Int × Int × Int)}
    (h1 : payloadIs d o) (h2 : ∀ a, permOutSel d (f a)) :
    permOutSel d (Out.bind o f) := by
  cases o with
  | ok a => exact h2 a
  | oob e =>
    have he : e = d := h1
    subst he
    exact List.Perm.refl e
  | spin e =>
    have he : e = d := h1
    subst he
    exact List.Perm.refl e

theorem permOutD_bind_perm {d : List Int} {o : Out (List Int)}
    {f : List Int → Out (List Int)}
    (h1 : permOutD d o) (h2 : ∀ a, permOutD a (f a)) :
    permOutD d (Out.bind o f) := by
  cases o with
  | ok a => exact permOutD_mono h1 (h2 a)
  | oob e => exact h1
  | spin e => exact h1

theorem permOutSel_bind_perm {d : List Int} {o : Out (List Int)}
    {f : List Int → Out (List Int × Int × Int)}
    (h1 : permOutD d o) (h2 : ∀ a, permOutSel a (f a)) :
    permOutSel d (Out.bind o f) := by
  cases o with
  | ok a => exact permOutSel_mono h1 (h2 a)
  | oob e => exact h1
  | spin e => exact h1

theorem permOutSel_bind_sel {d : List Int} {o : Out (List Int × Int × Int)}
    {f : List Int × Int × Int → Out (List Int × Int × Int)}
    (h1 : permOutSel d o) (h2 : ∀ x, permOutSel x.1 (f x)) :
    permOutSel d (Out.bind o f) := by
  cases o with
  | ok x => exact permOutSel_mono h1 (h2 x)
  | oob e => exact h1
  | spin e => exact h1

theorem permOutD_swapD (d : List Int) (i j : Int) : permOutD d (swapD d i j) := by
  unfold swapD
  split
  · rename_i hc
    show (swapCore d i.toNat j.toNat).Perm d
    exact swapCore_perm d i.toNat j.toNat
      (by have := hc.2.1; simp only [glen] at this; omega)
      (by have := hc.2.2.2; simp only [glen] at this; omega)
  · exact List.Perm.refl d

theorem permOutD_insSortInner (rev : Bool) (a : Int) :
    ∀ (fuel : Nat) (d : List Int) (j : Int),
      permOutD d (insSortInner rev a fuel d j) := by
  intro fuel
  induction fuel with
  | zero => intro d j; exact List.Perm.refl d
  | succ fuel ih =>
    intro d j
    rw [insSortInner]
    split
    · simp only [Out.monad_bind_eq_bind]
      refine permOutD_bind_payload (payloadIs_lessD rev d _ _) fun b => ?_
      split
      · exact permOutD_bind_perm (permOutD_swapD d _ _) fun d' => ih d' (j - 1)
      · exact List.Perm.refl d
    · exact List.Perm.refl d

theorem permOutD_insSortOuter (rev : Bool) (a b : Int) :
    ∀ (fuel : Nat) (d : List Int) (i : Int),
      permOutD d (insSortOuter rev a b fuel d i) := by
  intro fuel
  induction fuel with
  | zero => intro d i; exact List.Perm.refl d
  | succ fuel ih =>
    intro d i
    rw [insSortOuter]
    split
    · simp only [Out.monad_bind_eq_bind]
      exact permOutD_bind_perm (permOutD_insSortInner rev a _ d i)
        fun d' => ih d' (i + 1)
    · exact List.Perm.refl d

theorem permOutD_insertionSort (rev : Bool) (d : List Int) (a b : Int) :
    permOutD d (insertionSort rev d a b) :=
  permOutD_insSortOuter rev a b _ d (a + 1)

theorem permOutSel_p3wLoop (rev : Bool) (a : Int) :
    ∀ (fuel : Nat) (d : List Int) (lt gt i : Int),
      permOutSel d (p3wLoop rev a fuel d lt gt i) := by
  intro fuel
  induction fuel with
  | zero => intro d lt gt i; exact List.Perm.refl d
  | succ fuel ih =>
    intro d lt gt i
    rw [p3wLoop]
    split
    · simp only [Out.monad_bind_eq_bind]
      refine permOutSel_bind_payload (payloadIs_lessD rev d _ _) fun b1 => ?_
      split
      · exact permOutSel_bind_perm (permOutD_swapD d _ _)
          fun d' => ih d' (lt + 1) gt (i + 1)
      · refine permOutSel_bind_payload (payloadIs_lessD rev d _ _) fun b2 => ?_
        split
        · exact permOutSel_bind_perm (permOutD_swapD d _ _)
            fun d' => ih d' lt (gt - 1) i
        · exact ih d lt gt (i + 1)
    · exact List.Perm.refl d

theorem permOutSel_partition3Way (rev : Bool) (d : List Int) (a b p : Int) :
    permOutSel d (partition3Way rev d a b p) := by
  unfold partition3Way
  simp only [Out.monad_bind_eq_bind]
  refine permOutSel_bind_perm (permOutD_swapD d a p) fun d1 => ?_
  refine permOutSel_bind_sel (permOutSel_p3wLoop rev a _ d1 a (b - 1) (a + 1))
    fun x => ?_
  obtain ⟨d2, lt, gt⟩ := x
  split
  · exact List.Perm.refl d2
  · exact permOutSel_bind_perm (permOutD_swapD d2 a lt)
      fun d3 => List.Perm.refl d3

theorem permOutD_revKLoop :
    ∀ (fuel : Nat) (d : List Int) (i j : Int), permOutD d (revKLoop fuel d i j) := by
  intro fuel
  induction fuel with
  | zero => intro d i j; exact List.Perm.refl d
  | succ fuel ih =>
    intro d i j
    rw [revKLoop]
    split
    · simp only [Out.monad_bind_eq_bind]
      exact permOutD_bind_perm (permOutD_swapD d i j) fun d' => ih d' (i + 1) (j - 1)
    · exact List.Perm.refl d

theorem permOutD_placeLoop (hp : List Int) :
    ∀ (fuel : Nat) (d : List Int) (i : Int), permOutD d (placeLoop hp fuel d i) := by
  intro fuel
  induction fuel with
  | zero => intro d i; exact List.Perm.refl d
  | succ fuel ih =>
    intro d i
    rw [placeLoop]
    split
    · simp only [Out.monad_bind_eq_bind]
      refine permOutD_bind_payload (payloadIs_hread d hp i) fun hi => ?_
      exact permOutD_bind_perm (permOutD_swapD d i hi) fun d' => ih d' (i + 1)
    · exact List.Perm.refl d

theorem permOutSel_heapFinish (d hp : List Int) (k : Int) :
    permOutSel d (heapFinish d hp k) := by
  unfold heapFinish
  simp only [Out.monad_bind_eq_bind]
  exact permOutSel_bind_perm (permOutD_placeLoop _ _ d 0)
    fun d' => List.Perm.refl d'

theorem permOutSel_heapSelect (d : List Int) (k : Int) :
    permOutSel d (heapSelect d k) := by
  simp only [heapSelect, Out.monad_bind_eq_bind]
  split
  · exact List.Perm.refl d
  · split
    · refine permOutSel_bind_payload (payloadIs_findMinLoop false d _ _ 1 0)
        fun m => ?_
      exact List.Perm.refl d
    · split
      · exact List.Perm.refl d
      · split
        · refine permOutSel_bind_payload (payloadIs_heapInit d _) fun hp1 => ?_
          refine permOutSel_bind_payload (payloadIs_fwdScan d k _ _ hp1 k)
            fun hp2 => ?_
          exact permOutSel_heapFinish d hp2 k
        · refine permOutSel_bind_payload (payloadIs_revHeapInit d _) fun hp1 => ?_
          refine permOutSel_bind_payload (payloadIs_revScan d k _ _ hp1 _)
            fun hp2 => ?_
          refine permOutSel_bind_perm (permOutD_revKLoop _ d _ _) fun d2 => ?_
          exact permOutSel_heapFinish d2 hp2 k

/-! Arithmetic facts about the sortedness estimator, for claim C6. -/

theorem sampleSize_ge_two {ln : Int} (h : 2 ≤ ln) : 2 ≤ sampleSize ln := by
  unfold sampleSize
  refine le_min ?_ h
  rw [Int.le_ediv_iff_mul_le (by omega)]
  omega

theorem strideOf_bounds {ln : Int} (h : 2 ≤ ln) :
    1 ≤ strideOf ln ∧ strideOf ln ≤ ln - 1 := by
  have hss := sampleSize_ge_two h
  unfold strideOf
  by_cases hs : ln / sampleSize ln < 1
  · rw [if_pos hs]
    omega
  · rw [if_neg hs]
    push_neg at hs
    refine ⟨hs, ?_⟩
    have hlt : ln / sampleSize ln < ln := by
      rw [Int.ediv_lt_iff_lt_mul (by omega)]
      have h2 : ln * 2 ≤ ln * sampleSize ln :=
        mul_le_mul_of_nonneg_left hss (by omega)
      omega
    omega

theorem samplesOf_ge_one {ln : Int} (h : 2 ≤ ln) : 1 ≤ samplesOf ln := by
  obtain ⟨h1, h2⟩ := strideOf_bounds h
  unfold samplesOf
  rw [Int.le_ediv_iff_mul_le (by omega)]
  omega

theorem ordInvLoop_nonneg (d : List Int) (ln stride : Int) :
    ∀ (fuel : Nat) (i ord inv : Int), 0 ≤ ord → 0 ≤ inv →
      0 ≤ (ordInvLoop d ln stride fuel i (ord, inv)).1 ∧
      0 ≤ (ordInvLoop d ln stride fuel i (ord, inv)).2 := by
  intro fuel
  induction fuel with
  | zero => intro i o v ho hv; exact ⟨ho, hv⟩
  | succ fuel ih =>
    intro i o v ho hv
    rw [ordInvLoop]
    split
    · split
      · exact ih _ _ _ (by omega) hv
      · split
        · exact ih _ _ _ ho (by omega)
        · exact ih _ _ _ ho hv
    · exact ⟨ho, hv⟩

theorem ordInvLoop_sum_le (d : List Int) (ln : Int) {stride : Int}
    (hs : 1 ≤ stride) :
    ∀ (fuel : Nat) (i ord inv : Int),
      (ordInvLoop d ln stride fuel i (ord, inv)).1 +
        (ordInvLoop d ln stride fuel i (ord, inv)).2 ≤
      ord + inv + max 0 ((ln - 1 - i + stride - 1) / stride) := by
  intro fuel
  induction fuel with
  | zero =>
    intro i o v
    have h0 := le_max_left 0 ((ln - 1 - i + stride - 1) / stride)
    rw [ordInvLoop]
    omega
  | succ fuel ih =>
    intro i o v
    rw [ordInvLoop]
    by_cases hi : i < ln - 1
    · rw [if_pos hi]
      have hB1 : 1 ≤ (ln - 1 - i + stride - 1) / stride := by
        rw [Int.le_ediv_iff_mul_le (by omega)]
        omega
      have hstep : (ln - 1 - i + stride - 1) / stride
          = (ln - 1 - (i + stride) + stride - 1) / stride + 1 := by
        have he : ln - 1 - i + stride - 1
            = (ln - 1 - (i + stride) + stride - 1) + 1 * stride := by ring
        rw [he, Int.add_mul_ediv_right _ _ (by omega)]
      rw [max_eq_right (by omega)]
      have hmax : max 0 ((ln - 1 - (i + stride) + stride - 1) / stride) ≤
          (ln - 1 - i + stride - 1) / stride - 1 := by
        rcases le_or_lt 0 ((ln - 1 - (i + stride) + stride - 1) / stride) with hbp | hbp
        · rw [max_eq_right hbp]
          omega
        · rw [max_eq_left (by omega)]
          omega
      split
      · have := ih (i + stride) (o + 1) v
        omega
      · split
        · have := ih (i + stride) o (v + 1)
          omega
        · have := ih (i + stride) o v
          omega
    · rw [if_neg hi]
      have h0 := le_max_left 0 ((ln - 1 - i + stride - 1) / stride)
      omega

theorem sortednessCore_snd_pos {d : List Int} (h2 : 2 ≤ glen d) :
    1 ≤ (sortednessCore d).2 := by
  unfold sortednessCore
  rw [if_neg (by omega)]
  split
  · norm_num
  · split
    · norm_num
    · simpa using samplesOf_ge_one h2

theorem sortednessCore_num_bound {d : List Int} (h2 : 2 ≤ glen d) :
    |(sortednessCore d).1| ≤ (sortednessCore d).2 + 1 := by
  have hden := samplesOf_ge_one h2
  unfold sortednessCore
  rw [if_neg (by omega)]
  split
  · norm_num
  · split
    · norm_num
    · obtain ⟨hs1, hs2⟩ := strideOf_bounds h2
      have hnn := ordInvLoop_nonneg d (glen d) (strideOf (glen d))
        ((glen d).toNat + 1) 0 0 0 le_rfl le_rfl
      have hsum := ordInvLoop_sum_le d (glen d) hs1 ((glen d).toNat + 1) 0 0 0
      have hB : (glen d - 1 - 0 + strideOf (glen d) - 1) / strideOf (glen d) ≤
          samplesOf (glen d) + 1 := by
        have he : glen d - 1 - 0 + strideOf (glen d) - 1
            = (glen d - 2) + 1 * strideOf (glen d) := by ring
        rw [he, Int.add_mul_ediv_right _ _ (by omega)]
        have hmono : (glen d - 2) / strideOf (glen d) ≤
            (glen d - 1) / strideOf (glen d) :=
          Int.ediv_le_ediv (by omega) (by omega)
        unfold samplesOf
        omega
      have hmax : max 0 ((glen d - 1 - 0 + strideOf (glen d) - 1) /
          strideOf (glen d)) ≤ samplesOf (glen d) + 1 :=
        max_le (by omega) hB
      show |(ordInvLoop d (glen d) (strideOf (glen d)) ((glen d).toNat + 1) 0
          (0, 0)).1 - (ordInvLoop d (glen d) (strideOf (glen d))
          ((glen d).toNat + 1) 0 (0, 0)).2| ≤ samplesOf (glen d) + 1
      rw [abs_le]
      constructor
      · omega
      · omega

theorem abs_ratio_le {num den : Int} (hden : 1 ≤ den) (h : |num| ≤ den + 1) :
    |((num : Int) : ℚ) / ((den : Int) : ℚ)| ≤ 1 + 1 / ((den : Int) : ℚ) := by
  have hd : (0 : ℚ) < ((den : Int) : ℚ) := by
    exact_mod_cast (by omega : (0 : Int) < den)
  rw [abs_div, abs_of_pos hd]
  have hnum : |((num : Int) : ℚ)| ≤ ((den : Int) : ℚ) + 1 := by
    have hc : ((|num| : Int) : ℚ) ≤ ((den + 1 : Int) : ℚ) := by exact_mod_cast h
    rw [Int.cast_abs] at hc
    push_cast at hc ⊢
    exact hc
  calc |((num : Int) : ℚ)| / ((den : Int) : ℚ)
      ≤ (((den : Int) : ℚ) + 1) / ((den : Int) : ℚ) := by gcongr
    _ = 1 + 1 / ((den : Int) : ℚ) := by field_simp

/-- Claim C6, amended: lengths 0 and 1 score exactly `1.0`; length 2 is
decided by directly comparing the two elements (`1.0` if less, `-1.0` if
greater, and `0.0` for a tie, the tie falling through the `switch` into the
sampling loop over the single adjacent pair); and for every collection of
length at least 2 the score is `(ordered - inverted) / actualSamples` with
`actualSamples ≥ 1` and absolute value at most `1 + 1/actualSamples` — it is
not confined to `[-1, 1]`, since the sampling loop can run
`⌈(n-1)/stride⌉ = actualSamples + 1` times when the stride does not divide
`n - 1`. -/
theorem claim6_amended :
    (∀ d : List Int, glen d ≤ 1 → sortedness d = 1) ∧
    (∀ x y : Int, sortedness [x, y] =
      (if x < y then 1 else if y < x then -1 else 0)) ∧
    (∀ d : List Int, 2 ≤ glen d →
      1 ≤ (sortednessCore d).2 ∧
        |sortedness d| ≤ 1 + 1 / (((sortednessCore d).2 : Int) : ℚ)) := by
  refine ⟨?_, ?_, ?_⟩
  · intro d hd
    have h0 : 0 ≤ glen d := by simp only [glen]; omega
    unfold sortedness sortednessCore
    rw [if_pos (by omega)]
    norm_num
  · intro x y
    by_cases hxy : x < y
    · rw [if_pos hxy]
      unfold sortedness sortednessCore
      rw [if_neg (by norm_num [glen]), if_pos ⟨by norm_num [glen], by simpa using hxy⟩]
      norm_num
    · rw [if_neg hxy]
      by_cases hyx : y < x
      · rw [if_pos hyx]
        unfold sortedness sortednessCore
        rw [if_neg (by norm_num [glen]), if_neg (by simp [glen, hxy]),
          if_pos ⟨by norm_num [glen], by simpa using hyx⟩]
        norm_num
      · rw [if_neg hyx]
        unfold sortedness sortednessCore
        rw [if_neg (by norm_num [glen]), if_neg (by simp [glen, hxy]),
          if_neg (by simp [glen, hyx])]
        simp only [glen, List.length_cons, List.length_nil]
        norm_num
        rw [ordInvLoop]
        simp [hxy, hyx, ordInvLoop, samplesOf, strideOf, sampleSize]
  · intro d h2
    refine ⟨sortednessCore_snd_pos h2, ?_⟩
    exact abs_ratio_le (sortednessCore_snd_pos h2) (sortednessCore_num_bound h2)

/-- Witness for the amended claim C6 at concrete inputs. -/
theorem claim6_amended_witness :
    sortedness [] = 1 ∧ sortedness [4, 9] = 1 ∧
    (1 ≤ (sortednessCore [7, 5, 6]).2 ∧
      |sortedness [7, 5, 6]| ≤ 1 + 1 / (((sortednessCore [7, 5, 6]).2 : Int) : ℚ)) := by
  refine ⟨claim6_amended.1 [] (by decide), ?_, claim6_amended.2.2 [7, 5, 6] (by decide)⟩
  have h := claim6_amended.2.1 4 9
  simpa using h

/-- Claim C10: selection mutates the collection only through `Swap`, so the
collection contents are a permutation of the originals after every selection
call — including at the moment of an out-of-range panic — and likewise after
`insertionSort` and `partition3Way`. -/
theorem claim10_perm :
    (∀ (d : List Int) (k : Int), permOutSel d (QuickSelectGo d k)) ∧
    (∀ (rev : Bool) (d : List Int) (a b : Int),
      permOutD d (insertionSort rev d a b)) ∧
    (∀ (rev : Bool) (d : List Int) (a b p : Int),
      permOutSel d (partition3Way rev d a b p)) :=
  ⟨fun d k => permOutSel_heapSelect d k,
   fun rev d a b => permOutD_insertionSort rev d a b,
   fun rev d a b p => permOutSel_partition3Way rev d a b p⟩

end QSel

